import Mathlib

/-
Verification of the blocked LDA exchange-correlation kernel assembly from
Tutorials/04_Density_Functional_Theory/4b_LDA_kernel.ipynb.

The notebook loops over grid blocks; for each block it
  * extracts the local density slice      lD  = D[(lpos[:,None], lpos)]
  * builds the density on the grid        rho = 2.0 * einsum('pm,mn,pn->p', phi, lD, phi)
  * accumulates the XC energy             xc_e += einsum('a,a->', w, vk)
  * builds the local potential            Vtmp = einsum('pb,p,p,pa->ab', phi, v_rho_a, w, phi)
  * scatter-adds the symmetrized part     V[(lpos[:,None], lpos)] += 0.5 * (Vtmp + Vtmp.T)
The external functional evaluator is modelled by two pointwise functions
fE (per-point XC energy density, psi4 output "V") and fV (per-point
derivative, psi4 output "V_RHO_A"), both applied to the density at a point.
Exact arithmetic is modelled over the rationals.
-/

namespace LDAKernel

/-- A grid block as exposed by the grid provider: a number of points, a
number of locally relevant basis functions, the ordered local-to-global
basis-function index mapping `lpos`, the per-point quadrature weights `w`,
and the collocation (Phi) matrix of basis-function values at the points. -/
structure Block (nbf : ℕ) where
  npoints : ℕ
  nlocal : ℕ
  lpos : Fin nlocal → Fin nbf
  w : Fin npoints → ℚ
  phi : Fin npoints → Fin nlocal → ℚ

/-- Local density slice: lD = D[(lpos[:, None], lpos)]. -/
def lD {nbf : ℕ} (D : Fin nbf → Fin nbf → ℚ) (blk : Block nbf) :
    Fin blk.nlocal → Fin blk.nlocal → ℚ :=
  fun m n => D (blk.lpos m) (blk.lpos n)

/-- Density on the grid for a block: rho = 2.0 * np.einsum('pm,mn,pn->p', phi, lD, phi). -/
def rhoVec {nbf : ℕ} (D : Fin nbf → Fin nbf → ℚ) (blk : Block nbf) :
    Fin blk.npoints → ℚ :=
  fun p => 2 * ∑ m, ∑ n, blk.phi p m * lD D blk m n * blk.phi p n

/-- Per-block XC energy contribution: np.einsum('a,a->', w, vk) with
vk a = fE (rho a). -/
def blockEnergy {nbf : ℕ} (fE : ℚ → ℚ) (D : Fin nbf → Fin nbf → ℚ)
    (blk : Block nbf) : ℚ :=
  ∑ a, blk.w a * fE (rhoVec D blk a)

/-- Local potential contribution of a block:
Vtmp = np.einsum('pb,p,p,pa->ab', phi, v_rho_a, w, phi) with
v_rho_a p = fV (rho p). -/
def Vtmp {nbf : ℕ} (fV : ℚ → ℚ) (D : Fin nbf → Fin nbf → ℚ)
    (blk : Block nbf) : Fin blk.nlocal → Fin blk.nlocal → ℚ :=
  fun a b => ∑ p, blk.phi p b * fV (rhoVec D blk p) * blk.w p * blk.phi p a

/-- Symmetrized local potential contribution: 0.5 * (Vtmp + Vtmp.T). -/
def Vsym {nbf : ℕ} (fV : ℚ → ℚ) (D : Fin nbf → Fin nbf → ℚ)
    (blk : Block nbf) : Fin blk.nlocal → Fin blk.nlocal → ℚ :=
  fun a b => (1 / 2 : ℚ) * (Vtmp fV D blk a b + Vtmp fV D blk b a)

/-- Scatter-add of a local matrix into the global matrix at the outer
product of the local-to-global index list with itself:
V[(lpos[:, None], lpos)] += M.  (lpos is injective in the source program;
with an injective lpos the inner sum has at most one nonzero term and this
is exactly the NumPy fancy-indexed in-place addition.) -/
def scatterAdd {nbf : ℕ} (V : Fin nbf → Fin nbf → ℚ) (blk : Block nbf)
    (M : Fin blk.nlocal → Fin blk.nlocal → ℚ) : Fin nbf → Fin nbf → ℚ :=
  fun i j => V i j + ∑ a, ∑ b, if blk.lpos a = i ∧ blk.lpos b = j then M a b else 0

/-- The additive contribution a single block makes to the global V. -/
def blockContrib {nbf : ℕ} (fV : ℚ → ℚ) (D : Fin nbf → Fin nbf → ℚ)
    (blk : Block nbf) : Fin nbf → Fin nbf → ℚ :=
  fun i j => ∑ a, ∑ b, if blk.lpos a = i ∧ blk.lpos b = j then Vsym fV D blk a b else 0

/-- The mutable state of the notebook loop: the (read-only) density matrix
D, the accumulated XC potential matrix V, and the running XC energy xc_e. -/
@[ext]
structure LoopState (nbf : ℕ) where
  D : Fin nbf → Fin nbf → ℚ
  V : Fin nbf → Fin nbf → ℚ
  xcE : ℚ

/-- One iteration of the loop body over a block: only V and xc_e are
written; D is read to build lD, rho, Vtmp. -/
def stepBlock {nbf : ℕ} (fE fV : ℚ → ℚ) (s : LoopState nbf)
    (blk : Block nbf) : LoopState nbf :=
  { D := s.D
    V := scatterAdd s.V blk (Vsym fV s.D blk)
    xcE := s.xcE + blockEnergy fE s.D blk }

/-- The whole loop: V = np.zeros_like(D), xc_e = 0.0, then fold the loop
body over the list of blocks. -/
def xcLoop {nbf : ℕ} (fE fV : ℚ → ℚ) (D : Fin nbf → Fin nbf → ℚ)
    (blocks : List (Block nbf)) : LoopState nbf :=
  blocks.foldl (stepBlock fE fV) ⟨D, fun _ _ => 0, 0⟩

/-- Positive semidefiniteness of a rational matrix, stated through the
quadratic form. -/
def PosSemidefQ {n : ℕ} (M : Fin n → Fin n → ℚ) : Prop :=
  ∀ x : Fin n → ℚ, 0 ≤ ∑ i, ∑ j, x i * M i j * x j

/-- The direct, unblocked reference for V stated from the spec: evaluate
the full density rho_p = 2 Σ_{μν} Phi_pμ D_μν Phi_pν at every point and
contract V_ab = Σ_p w_p f'(rho_p) Phi_pa Phi_pb over the full basis with
no local-to-global indirection. -/
def directV {nbf npts : ℕ} (fV : ℚ → ℚ) (D : Fin nbf → Fin nbf → ℚ)
    (w : Fin npts → ℚ) (phi : Fin npts → Fin nbf → ℚ) :
    Fin nbf → Fin nbf → ℚ :=
  fun a b => ∑ p, w p * fV (2 * ∑ m, ∑ n, phi p m * D m n * phi p n) * phi p a * phi p b

/-- The D field of the loop state is never written by the loop body. -/
theorem foldl_D {nbf : ℕ} (fE fV : ℚ → ℚ) (blocks : List (Block nbf)) :
    ∀ s : LoopState nbf, (blocks.foldl (stepBlock fE fV) s).D = s.D := by
  induction blocks with
  | nil => intro s; rfl
  | cons blk rest ih => intro s; exact ih (stepBlock fE fV s blk)

/-- Folding the loop body accumulates, entrywise, the sum of the per-block
contributions to V on top of the starting V. -/
theorem foldl_V {nbf : ℕ} (fE fV : ℚ → ℚ) (blocks : List (Block nbf)) :
    ∀ (s : LoopState nbf) (i j : Fin nbf),
      (blocks.foldl (stepBlock fE fV) s).V i j =
        s.V i j + (blocks.map (fun c => blockContrib fV s.D c i j)).sum := by
  induction blocks with
  | nil => intro s i j; simp
  | cons blk rest ih =>
      intro s i j
      have hstep : (stepBlock fE fV s blk).D = s.D := rfl
      calc (List.foldl (stepBlock fE fV) (stepBlock fE fV s blk) rest).V i j
          = (stepBlock fE fV s blk).V i j +
              (rest.map (fun c => blockContrib fV (stepBlock fE fV s blk).D c i j)).sum :=
            ih (stepBlock fE fV s blk) i j
        _ = s.V i j + blockContrib fV s.D blk i j +
              (rest.map (fun c => blockContrib fV s.D c i j)).sum := by
            rw [hstep]; rfl
        _ = s.V i j + ((blk :: rest).map (fun c => blockContrib fV s.D c i j)).sum := by
            rw [List.map_cons, List.sum_cons, add_assoc]

/-- Folding the loop body accumulates the sum of per-block energies on top
of the starting energy. -/
theorem foldl_xcE {nbf : ℕ} (fE fV : ℚ → ℚ) (blocks : List (Block nbf)) :
    ∀ s : LoopState nbf,
      (blocks.foldl (stepBlock fE fV) s).xcE =
        s.xcE + (blocks.map (fun c => blockEnergy fE s.D c)).sum := by
  induction blocks with
  | nil => intro s; simp
  | cons blk rest ih =>
      intro s
      have hstep : (stepBlock fE fV s blk).D = s.D := rfl
      calc (List.foldl (stepBlock fE fV) (stepBlock fE fV s blk) rest).xcE
          = (stepBlock fE fV s blk).xcE +
              (rest.map (fun c => blockEnergy fE (stepBlock fE fV s blk).D c)).sum :=
            ih (stepBlock fE fV s blk)
        _ = s.xcE + blockEnergy fE s.D blk +
              (rest.map (fun c => blockEnergy fE s.D c)).sum := by rw [hstep]; rfl
        _ = s.xcE + ((blk :: rest).map (fun c => blockEnergy fE s.D c)).sum := by
            rw [List.map_cons, List.sum_cons, add_assoc]

/-- Over exact arithmetic the raw local contraction is already symmetric. -/
theorem Vtmp_symm {nbf : ℕ} (fV : ℚ → ℚ) (D : Fin nbf → Fin nbf → ℚ)
    (blk : Block nbf) (a b : Fin blk.nlocal) :
    Vtmp fV D blk a b = Vtmp fV D blk b a := by
  unfold Vtmp
  exact Finset.sum_congr rfl fun p _ => by ring

/-- The symmetrized local contribution is symmetric by construction. -/
theorem Vsym_symm {nbf : ℕ} (fV : ℚ → ℚ) (D : Fin nbf → Fin nbf → ℚ)
    (blk : Block nbf) (a b : Fin blk.nlocal) :
    Vsym fV D blk a b = Vsym fV D blk b a := by
  unfold Vsym; ring

/-- Each block's contribution to the global V is a symmetric matrix. -/
theorem blockContrib_symm {nbf : ℕ} (fV : ℚ → ℚ) (D : Fin nbf → Fin nbf → ℚ)
    (blk : Block nbf) (i j : Fin nbf) :
    blockContrib fV D blk i j = blockContrib fV D blk j i := by
  unfold blockContrib
  rw [Finset.sum_comm]
  refine Finset.sum_congr rfl fun b _ => Finset.sum_congr rfl fun a _ => ?_
  rw [Vsym_symm]
  exact if_congr and_comm rfl rfl

/-- Claim C1: for every block, the density assembler returns the vector
rho with rho p = 2 Σ_{μν} Phi p μ · lD μ ν · Phi p ν. -/
theorem rhoVec_eq_double_contraction {nbf : ℕ} (D : Fin nbf → Fin nbf → ℚ)
    (blk : Block nbf) (p : Fin blk.npoints) :
    rhoVec D blk p =
      2 * ∑ x : Fin blk.nlocal × Fin blk.nlocal,
        blk.phi p x.1 * lD D blk x.1 x.2 * blk.phi p x.2 := by
  rw [rhoVec, Fintype.sum_prod_type]

/-- Claim C10: the procedure never writes to the density matrix D: after
processing any list of blocks from any starting state the D component of
the loop state is entrywise its initial value, and in particular the full
run leaves the input D unchanged; only V and xc_e are written. -/
theorem loop_preserves_D {nbf : ℕ} (fE fV : ℚ → ℚ) (D : Fin nbf → Fin nbf → ℚ)
    (blocks : List (Block nbf)) (s : LoopState nbf) :
    (blocks.foldl (stepBlock fE fV) s).D = s.D ∧ (xcLoop fE fV D blocks).D = D :=
  ⟨foldl_D fE fV blocks s, foldl_D fE fV blocks ⟨D, fun _ _ => 0, 0⟩⟩

/-- Claim C4: the scalar XC energy is the running sum over blocks of
Σ_p w p · e p, starting from 0.0; each block adds exactly Σ_p w p · e p
(with e p the per-point energy density at the block's density). -/
theorem xc_energy_running_sum {nbf : ℕ} (fE fV : ℚ → ℚ)
    (D : Fin nbf → Fin nbf → ℚ) (blocks : List (Block nbf))
    (s : LoopState nbf) (blk : Block nbf) :
    (xcLoop fE fV D blocks).xcE =
      (blocks.map (fun c => ∑ p, c.w p * fE (rhoVec D c p))).sum
    ∧ (stepBlock fE fV s blk).xcE = s.xcE + ∑ p, blk.w p * fE (rhoVec s.D blk p) := by
  constructor
  · have h := foldl_xcE fE fV blocks ⟨D, fun _ _ => 0, 0⟩
    simpa [xcLoop, blockEnergy] using h
  · rfl

/-- Claim C3: after processing all blocks, in any order, the accumulated
XC potential matrix V is exactly symmetric entrywise. -/
theorem V_symmetric {nbf : ℕ} (fE fV : ℚ → ℚ) (D : Fin nbf → Fin nbf → ℚ)
    (blocks : List (Block nbf)) (i j : Fin nbf) :
    (xcLoop fE fV D blocks).V i j = (xcLoop fE fV D blocks).V j i := by
  have h1 := foldl_V fE fV blocks ⟨D, fun _ _ => 0, 0⟩ i j
  have h2 := foldl_V fE fV blocks ⟨D, fun _ _ => 0, 0⟩ j i
  have hfun : (fun c : Block nbf => blockContrib fV D c i j) =
      fun c => blockContrib fV D c j i :=
    funext fun c => blockContrib_symm fV D c i j
  show (blocks.foldl (stepBlock fE fV) ⟨D, fun _ _ => 0, 0⟩).V i j =
    (blocks.foldl (stepBlock fE fV) ⟨D, fun _ _ => 0, 0⟩).V j i
  rw [h1, h2]
  show (0 : ℚ) + (blocks.map (fun c => blockContrib fV D c i j)).sum =
    (0 : ℚ) + (blocks.map (fun c => blockContrib fV D c j i)).sum
  rw [hfun]

/-- Claim C2: for every block, the accumulator computes
Vtmp a b = Σ_p Phi p b · v_rho p · w p · Phi p a, symmetrizes it, and adds
the symmetrized matrix into V at the positions lpos a, lpos b (leaving
every row outside the image of lpos unchanged); across a run, every entry
of V holds the sum of all blocks' contributions to it. -/
theorem accumulator_scatter_add {nbf : ℕ} (fE fV : ℚ → ℚ) (s : LoopState nbf)
    (blk : Block nbf) (hinj : Function.Injective blk.lpos)
    (a b : Fin blk.nlocal) (i j : Fin nbf) (hi : ∀ c, blk.lpos c ≠ i)
    (D : Fin nbf → Fin nbf → ℚ) (blocks : List (Block nbf)) (k l : Fin nbf) :
    Vtmp fV s.D blk a b =
      (∑ p, blk.phi p b * fV (rhoVec s.D blk p) * blk.w p * blk.phi p a)
    ∧ (stepBlock fE fV s blk).V (blk.lpos a) (blk.lpos b) =
        s.V (blk.lpos a) (blk.lpos b) + Vsym fV s.D blk a b
    ∧ (stepBlock fE fV s blk).V i j = s.V i j
    ∧ (xcLoop fE fV D blocks).V k l =
        (blocks.map (fun c => blockContrib fV D c k l)).sum := by
  refine ⟨rfl, ?_, ?_, ?_⟩
  · show scatterAdd s.V blk (Vsym fV s.D blk) (blk.lpos a) (blk.lpos b) = _
    unfold scatterAdd
    congr 1
    simp [hinj.eq_iff, ite_and, Finset.sum_ite_eq']
  · show scatterAdd s.V blk (Vsym fV s.D blk) i j = s.V i j
    unfold scatterAdd
    have hz : ∀ c ∈ (Finset.univ : Finset (Fin blk.nlocal)),
        (∑ d, if blk.lpos c = i ∧ blk.lpos d = j
          then Vsym fV s.D blk c d else 0) = 0 := by
      intro c _
      refine Finset.sum_eq_zero fun d _ => ?_
      rw [if_neg]
      rintro ⟨h1, -⟩
      exact hi c h1
    rw [Finset.sum_eq_zero hz, add_zero]
  · have h := foldl_V fE fV blocks ⟨D, fun _ _ => 0, 0⟩ k l
    simpa [xcLoop] using h

/-- Claim C5: for a single block covering all points whose local-to-global
index list is the identity on the full basis, the blocked assembly
produces exactly (over exact arithmetic) the V of the direct brute-force
full-matrix contraction without blocking. -/
theorem single_block_matches_direct {nbf npts : ℕ} (fE fV : ℚ → ℚ)
    (D : Fin nbf → Fin nbf → ℚ) (w : Fin npts → ℚ)
    (phi : Fin npts → Fin nbf → ℚ) (a b : Fin nbf) :
    (xcLoop fE fV D [⟨npts, nbf, id, w, phi⟩]).V a b = directV fV D w phi a b := by
  show scatterAdd (fun _ _ => 0) ⟨npts, nbf, id, w, phi⟩
    (Vsym fV D ⟨npts, nbf, id, w, phi⟩) a b = directV fV D w phi a b
  unfold scatterAdd
  have hcollapse : (∑ x, ∑ y,
      if (⟨npts, nbf, id, w, phi⟩ : Block nbf).lpos x = a ∧
         (⟨npts, nbf, id, w, phi⟩ : Block nbf).lpos y = b
      then Vsym fV D ⟨npts, nbf, id, w, phi⟩ x y else 0) =
      Vsym fV D ⟨npts, nbf, id, w, phi⟩ a b := by
    simp [ite_and, Finset.sum_ite_eq']
  rw [hcollapse]
  unfold Vsym Vtmp directV rhoVec lD
  simp only [id_eq]
  rw [← Finset.sum_add_distrib, Finset.mul_sum, zero_add]
  exact Finset.sum_congr rfl fun p _ => by ring

/-- Claim C6: the accumulated loop state (V and xc_e alike) is invariant
under any permutation of the order in which blocks are processed. -/
theorem xcLoop_order_invariant {nbf : ℕ} (fE fV : ℚ → ℚ)
    (D : Fin nbf → Fin nbf → ℚ) (l1 l2 : List (Block nbf))
    (hp : l1.Perm l2) : xcLoop fE fV D l1 = xcLoop fE fV D l2 := by
  apply LoopState.ext
  · exact (foldl_D fE fV l1 ⟨D, fun _ _ => 0, 0⟩).trans
      (foldl_D fE fV l2 ⟨D, fun _ _ => 0, 0⟩).symm
  · funext i j
    have h1 := foldl_V fE fV l1 ⟨D, fun _ _ => 0, 0⟩ i j
    have h2 := foldl_V fE fV l2 ⟨D, fun _ _ => 0, 0⟩ i j
    show (l1.foldl (stepBlock fE fV) ⟨D, fun _ _ => 0, 0⟩).V i j =
      (l2.foldl (stepBlock fE fV) ⟨D, fun _ _ => 0, 0⟩).V i j
    rw [h1, h2]
    congr 1
    exact List.Perm.sum_eq (hp.map _)
  · have h1 := foldl_xcE fE fV l1 ⟨D, fun _ _ => 0, 0⟩
    have h2 := foldl_xcE fE fV l2 ⟨D, fun _ _ => 0, 0⟩
    show (l1.foldl (stepBlock fE fV) ⟨D, fun _ _ => 0, 0⟩).xcE =
      (l2.foldl (stepBlock fE fV) ⟨D, fun _ _ => 0, 0⟩).xcE
    rw [h1, h2]
    congr 1
    exact List.Perm.sum_eq (hp.map _)

/-- Pushing a locally indexed vector forward along lpos preserves a
weighted sum (weight on the right). -/
theorem sum_if_collapse_left {nbf L : ℕ} (g : Fin L → Fin nbf)
    (φ : Fin L → ℚ) (Z : Fin nbf → ℚ) :
    ∑ i, (∑ m, if g m = i then φ m else 0) * Z i = ∑ m, φ m * Z (g m) := by
  simp only [Finset.sum_mul, ite_mul, zero_mul]
  rw [Finset.sum_comm]
  refine Finset.sum_congr rfl fun m _ => ?_
  simp [Finset.sum_ite_eq]

/-- Pushing a locally indexed vector forward along lpos preserves a
weighted sum (weight on the left). -/
theorem sum_if_collapse_right {nbf L : ℕ} (g : Fin L → Fin nbf)
    (φ : Fin L → ℚ) (Z : Fin nbf → ℚ) :
    ∑ i, Z i * (∑ m, if g m = i then φ m else 0) = ∑ m, Z (g m) * φ m := by
  simp only [Finset.mul_sum, mul_ite, mul_zero]
  rw [Finset.sum_comm]
  refine Finset.sum_congr rfl fun m _ => ?_
  simp [Finset.sum_ite_eq]

/-- Claim C7: if the density matrix D is positive semidefinite then every
entry of the computed per-block density vector is non-negative. -/
theorem rho_nonneg {nbf : ℕ} (D : Fin nbf → Fin nbf → ℚ)
    (hD : PosSemidefQ D) (blk : Block nbf) (p : Fin blk.npoints) :
    0 ≤ rhoVec D blk p := by
  have key : ∑ i, ∑ j, (∑ m, if blk.lpos m = i then blk.phi p m else 0) * D i j *
      (∑ n, if blk.lpos n = j then blk.phi p n else 0)
      = ∑ m, ∑ n, blk.phi p m * lD D blk m n * blk.phi p n := by
    calc ∑ i, ∑ j, (∑ m, if blk.lpos m = i then blk.phi p m else 0) * D i j *
          (∑ n, if blk.lpos n = j then blk.phi p n else 0)
        = ∑ i, (∑ m, if blk.lpos m = i then blk.phi p m else 0) *
            (∑ j, D i j * (∑ n, if blk.lpos n = j then blk.phi p n else 0)) := by
          refine Finset.sum_congr rfl fun i _ => ?_
          conv_rhs => rw [Finset.mul_sum]
          exact Finset.sum_congr rfl fun j _ => by ring
      _ = ∑ m, blk.phi p m *
            (∑ j, D (blk.lpos m) j * (∑ n, if blk.lpos n = j then blk.phi p n else 0)) :=
          sum_if_collapse_left blk.lpos (blk.phi p) _
      _ = ∑ m, blk.phi p m * (∑ n, D (blk.lpos m) (blk.lpos n) * blk.phi p n) := by
          refine Finset.sum_congr rfl fun m _ => ?_
          rw [sum_if_collapse_right blk.lpos (blk.phi p) (fun j => D (blk.lpos m) j)]
      _ = ∑ m, ∑ n, blk.phi p m * lD D blk m n * blk.phi p n := by
          refine Finset.sum_congr rfl fun m _ => ?_
          rw [Finset.mul_sum]
          refine Finset.sum_congr rfl fun n _ => ?_
          simp only [lD]
          ring
  have h0 := hD (fun i => ∑ m, if blk.lpos m = i then blk.phi p m else 0)
  rw [key] at h0
  unfold rhoVec
  exact mul_nonneg (by norm_num) h0

/-- Claim C8 (amended): a block whose local-to-global index list is empty
leaves V unchanged at every entry; it also leaves the XC energy unchanged
provided the functional's per-point energy density vanishes at zero
density (fE 0 = 0), since the block's density vector is identically 0. -/
theorem empty_block_no_contribution {nbf : ℕ} (fE fV : ℚ → ℚ)
    (s : LoopState nbf) (blk : Block nbf) (h0 : blk.nlocal = 0)
    (hE : fE 0 = 0) (i j : Fin nbf) :
    (stepBlock fE fV s blk).V i j = s.V i j ∧
    (stepBlock fE fV s blk).xcE = s.xcE := by
  haveI : IsEmpty (Fin blk.nlocal) := by rw [h0]; exact Fin.isEmpty
  constructor
  · show scatterAdd s.V blk (Vsym fV s.D blk) i j = s.V i j
    unfold scatterAdd
    rw [Finset.univ_eq_empty, Finset.sum_empty, add_zero]
  · show s.xcE + blockEnergy fE s.D blk = s.xcE
    have hrho : ∀ a, rhoVec s.D blk a = 0 := by
      intro a
      unfold rhoVec
      rw [Finset.univ_eq_empty, Finset.sum_empty, mul_zero]
    have hz : ∀ a ∈ (Finset.univ : Finset (Fin blk.npoints)),
        blk.w a * fE (rhoVec s.D blk a) = 0 := by
      intro a _
      rw [hrho, hE, mul_zero]
    unfold blockEnergy
    rw [Finset.sum_eq_zero hz, add_zero]

/-- A concrete one-point block with an empty local-to-global index list. -/
@[reducible] def blkEmpty : Block 1 := ⟨1, 0, Fin.elim0, fun _ => 1, fun _ => Fin.elim0⟩

/-- The initial loop state over a one-function basis with zero density. -/
@[reducible] def stInit1 : LoopState 1 := ⟨fun _ _ => 0, fun _ _ => 0, 0⟩

/-- Claim C8, counterexample: with an XC functional whose energy density
at zero density is nonzero (here constantly 1), processing a block with an
empty local-to-global index list does change the accumulated XC energy, so
the claim as stated fails for an arbitrary functional evaluator. -/
theorem empty_block_energy_cex :
    Block.nlocal blkEmpty = 0 ∧
    (stepBlock (fun _ => (1 : ℚ)) (fun r => r) stInit1 blkEmpty).xcE ≠
      stInit1.xcE := by
  refine ⟨rfl, ?_⟩
  show (0 : ℚ) + blockEnergy (fun _ => 1) stInit1.D blkEmpty ≠ 0
  simp [blockEnergy, blkEmpty, stInit1]

/-- Witness block for the accumulator claim: one point, one local basis
function mapped to global index 0 inside a two-function basis. -/
@[reducible] def blkW : Block 2 := ⟨1, 1, fun _ => 0, fun _ => 1, fun _ _ => 1⟩

/-- Witness state for the accumulator claim. -/
@[reducible] def stW : LoopState 2 := ⟨fun _ _ => 1, fun _ _ => 0, 0⟩

/-- Witness for claim C2 at a concrete block, discharging injectivity of
lpos and the off-image condition for row index 1. -/
theorem accumulator_scatter_add_witness :
    Function.Injective (Block.lpos blkW) ∧ (∀ c, Block.lpos blkW c ≠ 1) ∧
    (stepBlock (fun r => r) (fun r => r) stW blkW).V
        (Block.lpos blkW 0) (Block.lpos blkW 0) =
      stW.V (Block.lpos blkW 0) (Block.lpos blkW 0) +
        Vsym (fun r => r) stW.D blkW 0 0 ∧
    (stepBlock (fun r => r) (fun r => r) stW blkW).V 1 0 = stW.V 1 0 := by
  have hinj : Function.Injective (Block.lpos blkW) := by
    intro a b _
    exact Subsingleton.elim a b
  have hi : ∀ c, Block.lpos blkW c ≠ 1 := by decide
  have h := accumulator_scatter_add (fun r => r) (fun r => r) stW blkW hinj
    0 0 1 0 hi stW.D [] 0 0
  exact ⟨hinj, hi, h.2.1, h.2.2.1⟩

/-- Witness blocks for the order-invariance claim. -/
@[reducible] def blkA : Block 2 := ⟨1, 2, fun m => m, fun _ => 1, fun _ m => (m.1 : ℚ)⟩

/-- Second witness block for the order-invariance claim. -/
@[reducible] def blkB : Block 2 := ⟨2, 1, fun _ => 1, fun _ => 2, fun q _ => (q.1 : ℚ) + 1⟩

/-- Witness for claim C6: two concrete blocks processed in both orders
give the same final state. -/
theorem xcLoop_order_invariant_witness :
    List.Perm [blkA, blkB] [blkB, blkA] ∧
    xcLoop (fun r => r) (fun r => r) (fun _ _ => 1) [blkA, blkB] =
      xcLoop (fun r => r) (fun r => r) (fun _ _ => 1) [blkB, blkA] := by
  have hp : List.Perm [blkA, blkB] [blkB, blkA] := List.Perm.swap blkB blkA []
  exact ⟨hp, xcLoop_order_invariant (fun r => r) (fun r => r)
    (fun _ _ => 1) [blkA, blkB] [blkB, blkA] hp⟩

/-- A concrete positive semidefinite (zero) density matrix. -/
@[reducible] def Dzero : Fin 1 → Fin 1 → ℚ := fun _ _ => 0

/-- A concrete one-point, one-function block over the one-function basis. -/
@[reducible] def blkC : Block 1 := ⟨1, 1, fun _ => 0, fun _ => 1, fun _ _ => 1⟩

/-- Witness for claim C7: the zero density matrix is positive semidefinite
and the resulting density vector entry is non-negative. -/
theorem rho_nonneg_witness :
    PosSemidefQ Dzero ∧ 0 ≤ rhoVec Dzero blkC 0 := by
  have hD : PosSemidefQ Dzero := by
    intro x
    simp [Dzero]
  exact ⟨hD, rho_nonneg Dzero hD blkC 0⟩

/-- Witness for claim C8 (amended form): at a concrete empty block and the
identity functional (whose value at 0 is 0), both accumulators are
unchanged. -/
theorem empty_block_no_contribution_witness :
    Block.nlocal blkEmpty = 0 ∧ (fun r : ℚ => r) 0 = 0 ∧
    ((stepBlock (fun r => r) (fun r => r) stInit1 blkEmpty).V 0 0 =
        stInit1.V 0 0 ∧
      (stepBlock (fun r => r) (fun r => r) stInit1 blkEmpty).xcE =
        stInit1.xcE) :=
  ⟨rfl, rfl, empty_block_no_contribution (fun r => r) (fun r => r)
    stInit1 blkEmpty rfl rfl 0 0⟩

end LDAKernel
